import Mathlib

/-!
Verification development for the `pdfgrep` indexing and search tool
(`src/pdfgrep.py`).  The Python source is shallowly embedded below:

* pure string manipulation (`str.lower`, `in`, `split("\n")`, `' '.join`,
  slicing prefix tests, `str.isdigit`, `'%d'` formatting) is modelled by
  executable functions over `List Char` / `String`;
* the JSON database (a Python `dict` mapping absolute path to
  `{mtime, fsize, pages}`) is modelled as an association list with unique
  keys, with `dict` lookup and `dict` assignment modelled by `dbGet`/`dbSet`;
* `build_workload`, `search`, `cleanup` are translated statement by
  statement; the worker process (`workload_thread`) and the coordinator's
  harvesting (`process_results`) are modelled as an event trace over an
  abstract rasterize+OCR collaborator.

Machine arithmetic notes: `int(...) / 2` in Python 3 is exact float
division; the only use is the comparison `thread_id >= ncpu / 2`, which for
naturals is equivalent to `2 * (thread_id + 1) ≥ ncpu` after the `+= 1`, and
is modelled that way.  File mtimes are modelled as `Int` (`int(st_mtime)`),
sizes as `Nat`.
-/

/-! ### Python string primitives -/

/-- Python `str.lower()` (ASCII case folding, as exercised by the tool). -/
def pyLower (s : String) : String := ⟨s.data.map Char.toLower⟩

/-- Python `"\n"`-splitting: `page.split("\n")` on the character list.
`split` on a one-character separator yields the (possibly empty) chunks
between newlines; the empty string yields `[""]`. -/
def splitNl : List Char → List (List Char)
  | [] => [[]]
  | c :: rest =>
    if c = '\n' then
      [] :: splitNl rest
    else
      match splitNl rest with
      | l :: ls => (c :: l) :: ls
      | [] => [[c]]

/-- `page.split("\n")` at the `String` level. -/
def pySplitLines (s : String) : List String := (splitNl s.data).map fun l => ⟨l⟩

/-- Python's substring test `needle in hay` on character lists. -/
def pyIn (needle : List Char) : List Char → Bool
  | [] => needle.isPrefixOf []
  | c :: rest => needle.isPrefixOf (c :: rest) || pyIn needle rest

/-- Python's substring test at the `String` level. -/
def pyInStr (needle hay : String) : Bool := pyIn needle.data hay.data

/-- The match test of `PDFGrep.search`:
`search_string.lower() in line.lower()`. -/
def containsCI (line q : String) : Bool := pyInStr (pyLower q) (pyLower line)

/-- `' '.join(parts)` on character lists. -/
def joinWithSpace : List (List Char) → List Char
  | [] => []
  | [x] => x
  | x :: y :: rest => x ++ ' ' :: joinWithSpace (y :: rest)

/-- `' '.join(search)` — the query string built from the non-flag
command-line arguments. -/
def joinSpaces (parts : List String) : String := ⟨joinWithSpace (parts.map String.data)⟩

/-- Python string comparison `a < b` (lexicographic on code points),
used by `sorted(...)`. -/
def strLtChars : List Char → List Char → Bool
  | [], [] => false
  | [], _ :: _ => true
  | _ :: _, [] => false
  | a :: as, b :: bs =>
    if a.val < b.val then true
    else if b.val < a.val then false
    else strLtChars as bs

/-- `a <= b` for Python string sorting. -/
def pyStrLe (a b : String) : Bool := !(strLtChars b.data a.data)

/-- Insert into a `pyStrLe`-sorted list (one step of the sort used to model
Python's `sorted`). -/
def insertLe (x : String) : List String → List String
  | [] => [x]
  | y :: ys => if pyStrLe x y then x :: y :: ys else y :: insertLe x ys

/-- `sorted(keys)` — Python's sort on the database keys, modelled as
insertion sort with the Python string order. -/
def sortStr (l : List String) : List String := l.foldr insertLe []

/-! ### The persistent database (Python `dict`, path → record) -/

/-- One database record: `{'mtime': ..., 'fsize': ..., 'pages': [...]}`. -/
structure DocRecord where
  mtime : Int
  fsize : Nat
  pages : List String
deriving DecidableEq

/-- The in-memory database `self.database`: a `dict` keyed by absolute
path, modelled as an association list with unique keys. -/
abbrev Db := List (String × DocRecord)

/-- `dict` lookup `self.database[path]` (with presence test `path in ...`). -/
def dbGet : Db → String → Option DocRecord
  | [], _ => none
  | e :: rest, p => if e.1 = p then some e.2 else dbGet rest p

/-- `dict` assignment `self.database[path] = record`: replace in place if
the key is present, append otherwise. -/
def dbSet : Db → String → DocRecord → Db
  | [], p, r => [(p, r)]
  | e :: rest, p, r => if e.1 = p then (p, r) :: rest else e :: dbSet rest p r

/-! ### Generic list helpers used by the embedding -/

/-- Concatenation of the per-element outputs of a loop body
(the shape of every nested `for` loop in the source). -/
def listFlat (f : α → List β) : List α → List β
  | [] => []
  | a :: l => f a ++ listFlat f l

/-- Pair every element with its index, starting at `i`
(the shape of the `pagen`/`i` counters in `PDFGrep.search`). -/
def enumFromN (i : Nat) : List α → List (Nat × α)
  | [] => []
  | a :: l => (i, a) :: enumFromN (i + 1) l

theorem listFlat_append (f : α → List β) (l₁ l₂ : List α) :
    listFlat f (l₁ ++ l₂) = listFlat f l₁ ++ listFlat f l₂ := by
  induction l₁ with
  | nil => rfl
  | cons a l ih => simp [listFlat, ih]

theorem filter_listFlat (p : β → Bool) (f : α → List β) (l : List α) :
    (listFlat f l).filter p = listFlat (fun a => (f a).filter p) l := by
  induction l with
  | nil => rfl
  | cons a l ih => simp [listFlat, List.filter_append, ih]

theorem listFlat_congr {f g : α → List β} {l : List α}
    (h : ∀ a ∈ l, f a = g a) : listFlat f l = listFlat g l := by
  induction l with
  | nil => rfl
  | cons a l ih =>
    simp only [listFlat, h a (List.mem_cons_self a l)]
    exact congrArg _ (ih fun b hb => h b (List.mem_cons_of_mem a hb))

/-! ### The search engine (`PDFGrep.search`) -/

/-- One emitted result: `(path, 1-based page number, 0-based line index,
raw line text)` — the payload of the `print` in `PDFGrep.search`. -/
abbrev SearchHit := String × Nat × Nat × String

/-- The `for line in page.split("\n")` loop of `PDFGrep.search`, with the
running line counter `i`. -/
def searchLines (q path : String) (pagen : Nat) : Nat → List String → List SearchHit
  | _, [] => []
  | i, line :: rest =>
    (if containsCI line q then [(path, pagen + 1, i, line)] else []) ++
      searchLines q path pagen (i + 1) rest

/-- The `for page in self.database[path]['pages']` loop of
`PDFGrep.search`, with the running page counter `pagen`. -/
def searchPages (q path : String) : Nat → List String → List SearchHit
  | _, [] => []
  | pagen, page :: rest =>
    searchLines q path pagen 0 (pySplitLines page) ++ searchPages q path (pagen + 1) rest

/-- `PDFGrep.search(search)`: join the non-flag arguments with spaces,
iterate `sorted(self.database)`, and scan pages and lines with the two
counters. -/
def search (args : List String) (db : Db) : List SearchHit :=
  listFlat (fun path =>
    match dbGet db path with
    | some r => searchPages (joinSpaces args) path 0 r.pages
    | none => []) (sortStr (db.map Prod.fst))

/-- Whether a hit's raw line contains the query case-insensitively —
the emission condition of `PDFGrep.search`. -/
def hitMatches (q : String) (m : SearchHit) : Bool := containsCI m.2.2.2 q

/-- The full enumeration of lines of the database in emission order:
documents in path-sorted order, pages in original order (1-based page
numbers), lines in original order (0-based line indices). -/
def enumLines (db : Db) : List SearchHit :=
  listFlat (fun path =>
    match dbGet db path with
    | some r =>
      listFlat (fun pp =>
        (enumFromN 0 (pySplitLines pp.2)).map fun il => (path, pp.1 + 1, il.1, il.2))
        (enumFromN 0 r.pages)
    | none => []) (sortStr (db.map Prod.fst))

theorem searchLines_eq (q path : String) (pagen : Nat) (lines : List String) :
    ∀ i, searchLines q path pagen i lines =
      ((enumFromN i lines).map fun il => (path, pagen + 1, il.1, il.2)).filter
        (hitMatches q) := by
  induction lines with
  | nil => intro i; rfl
  | cons line rest ih =>
    intro i
    simp only [searchLines, enumFromN, List.map_cons, List.filter_cons, ih]
    by_cases h : containsCI line q
    · simp [hitMatches, h]
    · simp [hitMatches, h]

theorem searchPages_eq (q path : String) (pages : List String) :
    ∀ pagen, searchPages q path pagen pages =
      (listFlat (fun pp =>
        (enumFromN 0 (pySplitLines pp.2)).map fun il => (path, pp.1 + 1, il.1, il.2))
        (enumFromN pagen pages)).filter (hitMatches q) := by
  induction pages with
  | nil => intro pagen; rfl
  | cons page rest ih =>
    intro pagen
    simp only [searchPages, enumFromN, listFlat, List.filter_append, ih,
      searchLines_eq]

/-- C1: the search operation, with query formed by joining the non-flag
arguments with single spaces, iterates documents in path-sorted order,
pages in original order and lines in original order, and emits
`(path, 1-based page, 0-based line index, raw line)` for exactly those
lines that contain the query as a case-insensitive literal substring.
On the database `{"/a.pdf": pages "Hello World\nFoo"}`, query `"hello"`
yields exactly `("/a.pdf", 1, 0, "Hello World")` and query `"zzz"` yields
no matches. -/
theorem search_matches_spec :
    (∀ (args : List String) (db : Db),
      search args db = (enumLines db).filter (hitMatches (joinSpaces args)))
    ∧ search ["hello"] [("/a.pdf", ⟨0, 0, ["Hello World\nFoo"]⟩)] =
        [("/a.pdf", 1, 0, "Hello World")]
    ∧ search ["zzz"] [("/a.pdf", ⟨0, 0, ["Hello World\nFoo"]⟩)] = [] := by
  refine ⟨fun args db => ?_, by decide, by decide⟩
  unfold search enumLines
  rw [filter_listFlat]
  refine listFlat_congr fun path _ => ?_
  cases dbGet db path with
  | none => rfl
  | some r => exact searchPages_eq _ _ _ _

/-! ### The workload partitioner (`PDFGrep.build_workload`) -/

/-- One work item `{'path': ..., 'mtime': ..., 'fsize': ...}` — the stat
snapshot appended to a slot's list by `build_workload`. -/
structure WorkItem where
  path : String
  mtime : Int
  fsize : Nat
deriving DecidableEq

/-- The skip test of `build_workload`:
`path in self.database and self.database[path]['mtime'] == mtime and
self.database[path]['fsize'] == fsize`. -/
def fpMatch (db : Db) (f : WorkItem) : Bool :=
  match dbGet db f.path with
  | some r => r.mtime == f.mtime && r.fsize == f.fsize
  | none => false

/-- The slot-counter update of `build_workload`: after `thread_id += 1`,
reset to `0` when `thread_id >= threads`, where
`threads = ncpu / 2` (Python float division); for naturals
`t + 1 ≥ ncpu / 2` is exactly `ncpu ≤ 2 * (t + 1)`. -/
def rrNext (ncpu t : Nat) : Nat := if ncpu ≤ 2 * (t + 1) then 0 else t + 1

/-- One iteration of the `for path in pdf_files` loop of `build_workload`.
State: current `thread_id`, the flat list of `(slot, item)` assignments in
append order, and `total_todo`. -/
def wlStep (ncpu : Nat) (db : Db) (st : Nat × List (Nat × WorkItem) × Nat)
    (f : WorkItem) : Nat × List (Nat × WorkItem) × Nat :=
  if fpMatch db f then st
  else (rrNext ncpu st.1, st.2.1 ++ [(st.1, f)], st.2.2 + 1)

/-- `PDFGrep.build_workload(pdf_files)`: returns the flat slot
assignments (the `workload` dict, as ordered `(slot, item)` pairs) and
`total_todo`.  The input `files` carries each candidate path with its
current `os.stat` mtime and size. -/
def buildWorkload (ncpu : Nat) (db : Db) (files : List WorkItem) :
    List (Nat × WorkItem) × Nat :=
  let st := files.foldl (wlStep ncpu db) (0, [], 0)
  (st.2.1, st.2.2)

/-- `workload[j]`: the ordered items assigned to slot `j`. -/
def perSlot (ncpu : Nat) (db : Db) (files : List WorkItem) (j : Nat) : List WorkItem :=
  (((buildWorkload ncpu db files).1).filter (fun a => a.1 == j)).map Prod.snd

/-- The sequence of slot ids taken by `thread_id` over `n` kept items,
starting from `t`. -/
def rrSeq (ncpu : Nat) : Nat → Nat → List Nat
  | _, 0 => []
  | t, n + 1 => t :: rrSeq ncpu (rrNext ncpu t) n

/-- The effective round-robin modulus of `build_workload`:
`thread_id` wraps after reaching `⌈ncpu / 2⌉`, with at least one slot. -/
def slotCount (ncpu : Nat) : Nat := max 1 ((ncpu + 1) / 2)

theorem rrSeq_length (ncpu : Nat) : ∀ n t, (rrSeq ncpu t n).length = n := by
  intro n
  induction n with
  | zero => intro t; rfl
  | succ n ih => intro t; simp [rrSeq, ih]

theorem slotCount_pos (ncpu : Nat) : 0 < slotCount ncpu := by
  simp [slotCount]

theorem rrNext_mod (ncpu t : Nat) (h : t < slotCount ncpu) :
    rrNext ncpu t = (t + 1) % slotCount ncpu := by
  have h1 : 1 ≤ slotCount ncpu := slotCount_pos ncpu
  have h2 : (ncpu + 1) / 2 ≤ slotCount ncpu := by
    unfold slotCount; exact le_max_right _ _
  have h3 : slotCount ncpu = 1 ∨ slotCount ncpu = (ncpu + 1) / 2 := by
    unfold slotCount; exact max_choice _ _
  by_cases hw : t + 1 = slotCount ncpu
  · rw [rrNext, if_pos (by omega), hw, Nat.mod_self]
  · rw [rrNext, if_neg (by omega), Nat.mod_eq_of_lt (by omega)]

theorem rrSeq_mod (ncpu : Nat) : ∀ n k,
    rrSeq ncpu (k % slotCount ncpu) n =
      (List.range' k n).map (· % slotCount ncpu) := by
  intro n
  induction n with
  | zero => intro k; rfl
  | succ n ih =>
    intro k
    have hlt : k % slotCount ncpu < slotCount ncpu :=
      Nat.mod_lt _ (slotCount_pos ncpu)
    have hstep : (k % slotCount ncpu + 1) % slotCount ncpu =
        (k + 1) % slotCount ncpu :=
      Nat.ModEq.add_right 1 (Nat.mod_modEq k (slotCount ncpu))
    simp only [rrSeq, List.range', List.map_cons]
    rw [rrNext_mod _ _ hlt, hstep]
    exact congrArg (List.cons _) (ih (k + 1))

theorem rrSeq_zero_eq_range_mod (ncpu n : Nat) :
    rrSeq ncpu 0 n = (List.range n).map (· % slotCount ncpu) := by
  have h := rrSeq_mod ncpu n 0
  rw [Nat.zero_mod] at h
  rw [List.range_eq_range']
  exact h

/-- The loop invariant of `build_workload`: starting from state
`(t0, l0, n0)`, the fold appends one `(slot, item)` pair per kept
candidate (fingerprint absent or different), slots following the
`thread_id` sequence from `t0`, and counts the kept candidates. -/
theorem wl_fold_spec (ncpu : Nat) (db : Db) : ∀ (files : List WorkItem)
    (t0 : Nat) (l0 : List (Nat × WorkItem)) (n0 : Nat),
    (files.foldl (wlStep ncpu db) (t0, l0, n0)).2.1 =
      l0 ++ (rrSeq ncpu t0 (files.filter (fun f => !fpMatch db f)).length).zip
        (files.filter (fun f => !fpMatch db f))
    ∧ (files.foldl (wlStep ncpu db) (t0, l0, n0)).2.2 =
      n0 + (files.filter (fun f => !fpMatch db f)).length := by
  intro files
  induction files with
  | nil => intro t0 l0 n0; simp [rrSeq]
  | cons f fs ih =>
    intro t0 l0 n0
    by_cases h : fpMatch db f
    · have hf : List.filter (fun f' => !fpMatch db f') (f :: fs) =
          List.filter (fun f' => !fpMatch db f') fs := by simp [h]
      have hstep : wlStep ncpu db (t0, l0, n0) f = (t0, l0, n0) := by
        simp [wlStep, h]
      rw [List.foldl_cons, hstep, hf]
      exact ih t0 l0 n0
    · have hf : List.filter (fun f' => !fpMatch db f') (f :: fs) =
          f :: List.filter (fun f' => !fpMatch db f') fs := by simp [h]
      have hstep : wlStep ncpu db (t0, l0, n0) f =
          (rrNext ncpu t0, l0 ++ [(t0, f)], n0 + 1) := by
        simp [wlStep, h]
      rw [List.foldl_cons, hstep, hf]
      obtain ⟨ih1, ih2⟩ := ih (rrNext ncpu t0) (l0 ++ [(t0, f)]) (n0 + 1)
      constructor
      · rw [ih1, List.append_assoc]
        simp [rrSeq]
      · rw [ih2]
        simp only [List.length_cons]
        omega

theorem buildWorkload_items (ncpu : Nat) (db : Db) (files : List WorkItem) :
    (buildWorkload ncpu db files).1 =
      (rrSeq ncpu 0 (files.filter (fun f => !fpMatch db f)).length).zip
        (files.filter (fun f => !fpMatch db f)) := by
  have h := wl_fold_spec ncpu db files 0 [] 0
  simpa [buildWorkload] using h.1

theorem buildWorkload_total (ncpu : Nat) (db : Db) (files : List WorkItem) :
    (buildWorkload ncpu db files).2 =
      (files.filter (fun f => !fpMatch db f)).length := by
  have h := wl_fold_spec ncpu db files 0 [] 0
  simpa [buildWorkload] using h.2

theorem zip_map_snd {α β : Type} (l₁ : List α) (l₂ : List β)
    (h : l₁.length = l₂.length) : (l₁.zip l₂).map Prod.snd = l₂ := by
  induction l₁ generalizing l₂ with
  | nil => cases l₂ with
    | nil => rfl
    | cons b bs => simp at h
  | cons a as ih =>
    cases l₂ with
    | nil => simp at h
    | cons b bs =>
      simp only [List.zip_cons_cons, List.map_cons]
      rw [ih bs (by simpa using h)]

theorem zip_map_fst {α β : Type} (l₁ : List α) (l₂ : List β)
    (h : l₁.length = l₂.length) : (l₁.zip l₂).map Prod.fst = l₁ := by
  induction l₁ generalizing l₂ with
  | nil => rfl
  | cons a as ih =>
    cases l₂ with
    | nil => simp at h
    | cons b bs =>
      simp only [List.zip_cons_cons, List.map_cons]
      rw [ih bs (by simpa using h)]

theorem buildWorkload_map_snd (ncpu : Nat) (db : Db) (files : List WorkItem) :
    (buildWorkload ncpu db files).1.map Prod.snd =
      files.filter (fun f => !fpMatch db f) := by
  rw [buildWorkload_items]
  exact zip_map_snd _ _ (rrSeq_length ncpu _ _)

theorem buildWorkload_map_fst (ncpu : Nat) (db : Db) (files : List WorkItem) :
    (buildWorkload ncpu db files).1.map Prod.fst =
      (List.range (buildWorkload ncpu db files).2).map (· % slotCount ncpu) := by
  rw [buildWorkload_items, buildWorkload_total,
    zip_map_fst _ _ (rrSeq_length ncpu _ _), rrSeq_zero_eq_range_mod]

/-- C2: a candidate is excluded from the outstanding work if and only if a
database record exists for its path whose stored `(mtime, fsize)` pair is
exactly equal to the candidate's current pair; the comparison is exact
equality of both fields, so any metadata difference keeps the candidate in
the workload. -/
theorem fingerprint_skip_iff (ncpu : Nat) (db : Db) (files : List WorkItem) :
    (buildWorkload ncpu db files).1.map Prod.snd =
      files.filter (fun f => !fpMatch db f)
    ∧ ∀ f : WorkItem, fpMatch db f = true ↔
        ∃ r, dbGet db f.path = some r ∧ r.mtime = f.mtime ∧ r.fsize = f.fsize := by
  refine ⟨buildWorkload_map_snd ncpu db files, fun f => ?_⟩
  unfold fpMatch
  cases h : dbGet db f.path with
  | none => simp
  | some r => simp [Bool.and_eq_true, beq_iff_eq]

/-- C2 witness: a database holding `("/a.pdf", mtime 5, size 7)` skips the
identical stat snapshot and keeps the one whose mtime moved to 6. -/
theorem fingerprint_skip_iff_witness :
    (buildWorkload 4 [("/a.pdf", ⟨5, 7, []⟩)]
        [⟨"/a.pdf", 5, 7⟩, ⟨"/a.pdf", 6, 7⟩]).1.map Prod.snd =
      [⟨"/a.pdf", 5, 7⟩, ⟨"/a.pdf", 6, 7⟩].filter
        (fun f => !fpMatch [("/a.pdf", ⟨5, 7, []⟩)] f) :=
  (fingerprint_skip_iff 4 [("/a.pdf", ⟨5, 7, []⟩)]
    [⟨"/a.pdf", 5, 7⟩, ⟨"/a.pdf", 6, 7⟩]).1

/-- C3: the flat `(slot, item)` assignment list of `build_workload` — whose
per-slot projections are exactly the `workload[j]` lists (`perSlot`) — maps
onto the items exactly the candidates whose fingerprint differs from or is
absent from the database, each exactly once (so the per-slot union is that
set with no double assignment); slots follow the round-robin sequence
`i % slotCount ncpu`; and the returned total equals the number of assigned
items. -/
theorem workload_partition_complete (ncpu : Nat) (db : Db) (files : List WorkItem) :
    (buildWorkload ncpu db files).1.map Prod.snd =
      files.filter (fun f => !fpMatch db f)
    ∧ (buildWorkload ncpu db files).1.map Prod.fst =
        (List.range (buildWorkload ncpu db files).2).map (· % slotCount ncpu)
    ∧ (buildWorkload ncpu db files).2 = (buildWorkload ncpu db files).1.length := by
  refine ⟨buildWorkload_map_snd ncpu db files, buildWorkload_map_fst ncpu db files, ?_⟩
  rw [buildWorkload_total, buildWorkload_items, List.length_zip,
    rrSeq_length, Nat.min_self]

/-- C4 counterexample: with 3 detected cores and two outstanding candidates
the partitioner uses slots 0 and 1 (because `thread_id >= 3 / 2` first
holds at `thread_id = 2` under Python float division), so the number of
worker slots used is 2, while `max(1, floor(3 / 2)) = 1`. -/
theorem worker_slots_floor_counterexample :
    ¬ (((buildWorkload 3 [] [⟨"/a.pdf", 0, 0⟩, ⟨"/b.pdf", 0, 0⟩]).1.map
          Prod.fst).dedup.length = max 1 (3 / 2)) := by
  decide

/-- C4 amended: the round-robin distribution of `build_workload` cycles
through `max(1, ceil(detectedCores / 2))` slots (`slotCount`), i.e. the
i-th assigned item goes to slot `i % max(1, ⌈ncpu / 2⌉)` — ceiling, not
floor, because `thread_id` wraps only once it reaches the float
`ncpu / 2`. -/
theorem worker_slots_ceil (ncpu : Nat) (db : Db) (files : List WorkItem) :
    (buildWorkload ncpu db files).1.map Prod.fst =
      (List.range (buildWorkload ncpu db files).2).map (· % slotCount ncpu)
    ∧ slotCount ncpu = max 1 ((ncpu + 1) / 2) :=
  ⟨buildWorkload_map_fst ncpu db files, rfl⟩

/-! ### The reconciler (`PDFGrep.cleanup`, `PDFGrep.path_in_paths`) -/

/-- `PDFGrep.path_in_paths(path, path_list)`:
`path[0:len(item)] == item` for some `item` in the list. -/
def path_in_paths (p : String) (l : List String) : Bool :=
  l.any fun item => p.data.take item.data.length == item.data

/-- Python list membership `x in l` for strings (`path not in pdf_files`). -/
def pyMemStr (x : String) (l : List String) : Bool := l.any fun y => y == x

/-- `self.database.pop(path)`: remove the entry with that key
(keys are unique in a `dict`). -/
def pyPop (d : Db) (p : String) : Db := d.filter fun e => !(e.1 == p)

/-- `PDFGrep.cleanup(paths_to_index, pdf_files, paths_to_ignore)`: collect
`to_remove` — the database paths under an indexed root that are either
absent from the candidate list or under an ignore prefix — pop them all,
and call `self.save()` once (the second component counts the save calls). -/
def cleanup (db : Db) (paths_to_index pdf_files paths_to_ignore : List String) :
    Db × Nat :=
  let to_remove := (db.map Prod.fst).filter fun p =>
    path_in_paths p paths_to_index &&
      (!(pyMemStr p pdf_files) || path_in_paths p paths_to_ignore)
  (to_remove.foldl pyPop db, 1)

theorem pyMemStr_eq_true_iff (x : String) (l : List String) :
    pyMemStr x l = true ↔ x ∈ l := by
  simp [pyMemStr, List.any_eq_true, beq_iff_eq]

theorem foldl_pyPop (ps : List String) : ∀ d : Db,
    ps.foldl pyPop d = d.filter fun e => !(pyMemStr e.1 ps) := by
  induction ps with
  | nil =>
    intro d
    simp [pyMemStr]
  | cons p ps ih =>
    intro d
    rw [List.foldl_cons, ih (pyPop d p)]
    unfold pyPop
    rw [List.filter_filter]
    apply List.filter_congr
    intro e _
    cases hpv : (p == e.1) <;> simp [pyMemStr, List.any_cons, hpv] <;>
      simp [beq_iff_eq] at hpv <;> simp [hpv, eq_comm]

/-- C5: the cleanup pass removes from the database exactly the paths under
an indexed root that are absent from the candidate list or under an ignore
prefix; entries outside the indexed roots are untouched; and it persists
(calls `save`) exactly once, after all removals. -/
theorem cleanup_removes_exactly (db : Db) (roots files ignore : List String) :
    (cleanup db roots files ignore).1 = db.filter (fun e =>
      !(path_in_paths e.1 roots && (!(pyMemStr e.1 files) || path_in_paths e.1 ignore)))
    ∧ (cleanup db roots files ignore).2 = 1
    ∧ ∀ e ∈ db, path_in_paths e.1 roots = false →
        e ∈ (cleanup db roots files ignore).1 := by
  have hmain : (cleanup db roots files ignore).1 = db.filter (fun e =>
      !(path_in_paths e.1 roots &&
        (!(pyMemStr e.1 files) || path_in_paths e.1 ignore))) := by
    show List.foldl pyPop db ((db.map Prod.fst).filter fun p =>
        path_in_paths p roots &&
          (!(pyMemStr p files) || path_in_paths p ignore)) = _
    rw [foldl_pyPop]
    apply List.filter_congr
    intro e he
    have hmem :
        pyMemStr e.1 ((db.map Prod.fst).filter fun p =>
          path_in_paths p roots &&
            (!(pyMemStr p files) || path_in_paths p ignore)) =
        (path_in_paths e.1 roots &&
          (!(pyMemStr e.1 files) || path_in_paths e.1 ignore)) := by
      rw [Bool.eq_iff_iff, pyMemStr_eq_true_iff, List.mem_filter]
      constructor
      · exact fun h => h.2
      · exact fun h => ⟨List.mem_map_of_mem Prod.fst he, h⟩
    rw [hmem]
  refine ⟨hmain, rfl, fun e he hroots => ?_⟩
  rw [hmain, List.mem_filter]
  exact ⟨he, by simp [hroots]⟩

/-- C5 witness: an entry outside the indexed roots survives a cleanup pass
that removes everything under them, and exactly one save is recorded. -/
theorem cleanup_removes_exactly_witness :
    ("/other/k.pdf", (⟨0, 0, []⟩ : DocRecord)) ∈
      (cleanup [("/other/k.pdf", ⟨0, 0, []⟩)] ["/idx"] [] []).1 :=
  (cleanup_removes_exactly [("/other/k.pdf", ⟨0, 0, []⟩)] ["/idx"] [] []).2.2
    ("/other/k.pdf", ⟨0, 0, []⟩) (by decide) (by decide)

/-! ### The worker (`PDFGrep.workload_thread`) and the coordinator's
harvesting (`PDFGrep.process_results`) -/

/-- One staged result object, the JSON written by the worker:
`{'path': ..., 'mtime': ..., 'fsize': ..., 'pages': [...]}`. -/
structure StagedObj where
  path : String
  mtime : Int
  fsize : Nat
  pages : List String
deriving DecidableEq

/-- A decimal digit of `'%d'` formatting (defaulting inside the digit
range; callers only reach `d < 10`). -/
def digitChar : Nat → Char
  | 0 => '0'
  | 1 => '1'
  | 2 => '2'
  | 3 => '3'
  | 4 => '4'
  | 5 => '5'
  | 6 => '6'
  | 7 => '7'
  | 8 => '8'
  | 9 => '9'
  | _ => '0'

/-- The digit-accumulator loop of decimal formatting; one unit of fuel per
digit, `fuel = n` always suffices. -/
def natDecGo : Nat → Nat → List Char → List Char
  | 0, n, acc => digitChar n :: acc
  | fuel + 1, n, acc =>
    if n < 10 then digitChar n :: acc
    else natDecGo fuel (n / 10) (digitChar (n % 10) :: acc)

/-- `'%d' % n`: the decimal rendering of a sequence number. -/
def natDecimal (n : Nat) : String := ⟨natDecGo n n []⟩

/-- The temporary staging name `'%d.tmp' % i`. -/
def tmpName (i : Nat) : String := natDecimal i ++ ".tmp"

/-- The final (published) staging name `'%d' % i`. -/
def finName (i : Nat) : String := natDecimal i

/-- Python `str.isdigit()` on the names in play (ASCII digits; the empty
string is not a digit string) — the coordinator's harvest filter
`path.split('/')[-1].isdigit()`. -/
def pyIsdigit (s : String) : Bool := !s.data.isEmpty && s.data.all Char.isDigit

/-- The diagnostic printed by the `PDFPageCountError` handler of
`workload_thread`. -/
def diagMsg (path err : String) : String :=
  if pyInStr "Incorrect password" err then
    "cannot index: " ++ path ++ " - password protected\n"
  else
    "cannot index: " ++ path ++ " - " ++ err ++ "\n"

/-- The observable events of a worker run: an invocation of the
rasterize+OCR collaborator, a diagnostic line on the shared output stream,
a file written in the worker's staging directory, or an atomic rename
inside that directory. -/
inductive WEvent where
  | ocrCall (path : String)
  | diag (msg : String)
  | write (name : String) (obj : StagedObj)
  | rename (src : String) (dst : String)
deriving DecidableEq

/-- The `for item in workload` loop of `workload_thread`, with the staging
sequence counter `i` (incremented only after a successful publish):
invoke the collaborator (`convert_from_path` plus `image_to_string` per
page, abstracted as `ocr` returning the ordered page texts or an error
string); on `PDFPageCountError` print a diagnostic and continue with the
next item; on success write the serialized object to `'%d.tmp' % i` and
rename it to `'%d' % i`. -/
def workerGo (ocr : String → Except String (List String)) :
    Nat → List WorkItem → List WEvent
  | _, [] => []
  | i, it :: rest =>
    match ocr it.path with
    | .error e =>
      WEvent.ocrCall it.path :: WEvent.diag (diagMsg it.path e) ::
        workerGo ocr i rest
    | .ok pgs =>
      WEvent.ocrCall it.path ::
        WEvent.write (tmpName i) ⟨it.path, it.mtime, it.fsize, pgs⟩ ::
          WEvent.rename (tmpName i) (finName i) :: workerGo ocr (i + 1) rest

/-- `workload_thread(thread_id, workload)`: process the slot's items in
order starting from sequence number 0. -/
def workerRun (ocr : String → Except String (List String))
    (items : List WorkItem) : List WEvent :=
  workerGo ocr 0 items

/-- The fully published staging files left by a trace: a write immediately
followed by the rename of that same name publishes the written object
under the rename's destination name. -/
def published : List WEvent → List (String × StagedObj)
  | WEvent.write n o :: WEvent.rename s d :: rest =>
    if s = n then (d, o) :: published rest else published rest
  | _ :: rest => published rest
  | [] => []

/-- `process_results(thread_id)`: harvest the staging files whose name
`isdigit()`, deserialize each and merge
`database[obj['path']] = {mtime, fsize, pages}` into the database
(saving after each merge and deleting the staging file). -/
def process_results (db : Db) (evts : List WEvent) : Db :=
  ((published evts).filter fun e => pyIsdigit e.1).foldl
    (fun d e => dbSet d e.2.path ⟨e.2.mtime, e.2.fsize, e.2.pages⟩) db

/-- Traces in which every staging write is immediately followed by the
atomic rename of that same temporary name: no result is observable
mid-write under its published name. -/
inductive WellStaged : List WEvent → Prop
  | nil : WellStaged []
  | ocr (p : String) (l : List WEvent) :
      WellStaged l → WellStaged (WEvent.ocrCall p :: l)
  | diag (m : String) (l : List WEvent) :
      WellStaged l → WellStaged (WEvent.diag m :: l)
  | publish (n : String) (o : StagedObj) (d : String) (l : List WEvent) :
      WellStaged l → WellStaged (WEvent.write n o :: WEvent.rename n d :: l)

/-- Reference description of the publish sequence of a worker run: one
final-named file per successful item, carrying exactly the collaborator's
page sequence. -/
def pubList (ocr : String → Except String (List String)) :
    Nat → List WorkItem → List (String × StagedObj)
  | _, [] => []
  | i, it :: rest =>
    match ocr it.path with
    | .error _ => pubList ocr i rest
    | .ok pgs => (finName i, ⟨it.path, it.mtime, it.fsize, pgs⟩) :: pubList ocr (i + 1) rest

theorem digitChar_isDigit (d : Nat) : (digitChar d).isDigit = true := by
  unfold digitChar
  split <;> decide

theorem natDecGo_all_digits : ∀ (fuel n : Nat) (acc : List Char),
    acc.all Char.isDigit = true → (natDecGo fuel n acc).all Char.isDigit = true := by
  intro fuel
  induction fuel with
  | zero =>
    intro n acc h
    simp [natDecGo, digitChar_isDigit, h]
  | succ fuel ih =>
    intro n acc h
    unfold natDecGo
    by_cases hn : n < 10
    · simp [hn, digitChar_isDigit, h]
    · simp only [hn, if_false]
      exact ih (n / 10) _ (by simp [digitChar_isDigit, h])

theorem natDecGo_ne_nil : ∀ (fuel n : Nat) (acc : List Char),
    natDecGo fuel n acc ≠ [] := by
  intro fuel
  induction fuel with
  | zero => intro n acc; simp [natDecGo]
  | succ fuel ih =>
    intro n acc
    unfold natDecGo
    by_cases hn : n < 10
    · simp [hn]
    · simp only [hn, if_false]
      exact ih _ _

theorem pyIsdigit_natDecimal (n : Nat) : pyIsdigit (natDecimal n) = true := by
  show (!(natDecGo n n []).isEmpty && (natDecGo n n []).all Char.isDigit) = true
  rw [natDecGo_all_digits n n [] rfl, Bool.and_true]
  cases hE : (natDecGo n n []).isEmpty
  · rfl
  · exact absurd (List.isEmpty_iff.mp hE) (natDecGo_ne_nil n n [])

theorem pyIsdigit_finName (i : Nat) : pyIsdigit (finName i) = true :=
  pyIsdigit_natDecimal i

theorem pyIsdigit_tmpName (i : Nat) : pyIsdigit (tmpName i) = false := by
  show (!((natDecimal i ++ ".tmp") : String).data.isEmpty &&
      ((natDecimal i ++ ".tmp") : String).data.all Char.isDigit) = false
  have hdata : ((natDecimal i ++ ".tmp") : String).data =
      (natDecimal i).data ++ (".tmp" : String).data := by
    cases natDecimal i
    rfl
  rw [hdata, List.all_append]
  have h4 : ((".tmp" : String).data.all Char.isDigit) = false := by decide
  rw [h4, Bool.and_false, Bool.and_false]

theorem published_cons_ocrCall (p : String) (l : List WEvent) :
    published (WEvent.ocrCall p :: l) = published l := by
  cases l with
  | nil => rfl
  | cons e l => cases e <;> rfl

theorem published_cons_diag (m : String) (l : List WEvent) :
    published (WEvent.diag m :: l) = published l := by
  cases l with
  | nil => rfl
  | cons e l => cases e <;> rfl

theorem published_write_rename (n : String) (o : StagedObj) (s d : String)
    (l : List WEvent) :
    published (WEvent.write n o :: WEvent.rename s d :: l) =
      if s = n then (d, o) :: published l else published l := rfl

theorem workerGo_wellStaged (ocr : String → Except String (List String)) :
    ∀ (items : List WorkItem) (i : Nat), WellStaged (workerGo ocr i items) := by
  intro items
  induction items with
  | nil => intro i; exact WellStaged.nil
  | cons it rest ih =>
    intro i
    cases h : ocr it.path with
    | error e =>
      simp only [workerGo, h]
      exact WellStaged.ocr _ _ (WellStaged.diag _ _ (ih i))
    | ok pgs =>
      simp only [workerGo, h]
      exact WellStaged.ocr _ _ (WellStaged.publish _ _ _ _ (ih (i + 1)))

theorem workerGo_write_names (ocr : String → Except String (List String)) :
    ∀ (items : List WorkItem) (i : Nat) (n : String) (o : StagedObj),
    WEvent.write n o ∈ workerGo ocr i items →
    (∃ j, n = tmpName j) ∧ ocr o.path = .ok o.pages := by
  intro items
  induction items with
  | nil => intro i n o h; simp [workerGo] at h
  | cons it rest ih =>
    intro i n o h
    cases hc : ocr it.path with
    | error e =>
      simp only [workerGo, hc, List.mem_cons] at h
      rcases h with h | h | h
      · exact absurd h (by simp)
      · exact absurd h (by simp)
      · exact ih i n o h
    | ok pgs =>
      simp only [workerGo, hc, List.mem_cons] at h
      rcases h with h | h | h | h
      · exact absurd h (by simp)
      · rw [WEvent.write.injEq] at h
        refine ⟨⟨i, h.1⟩, ?_⟩
        rw [h.2]
        exact hc
      · exact absurd h (by simp)
      · exact ih (i + 1) n o h

theorem workerGo_rename_names (ocr : String → Except String (List String)) :
    ∀ (items : List WorkItem) (i : Nat) (s d : String),
    WEvent.rename s d ∈ workerGo ocr i items →
    ∃ j, s = tmpName j ∧ d = finName j := by
  intro items
  induction items with
  | nil => intro i s d h; simp [workerGo] at h
  | cons it rest ih =>
    intro i s d h
    cases hc : ocr it.path with
    | error e =>
      simp only [workerGo, hc, List.mem_cons] at h
      rcases h with h | h | h
      · exact absurd h (by simp)
      · exact absurd h (by simp)
      · exact ih i s d h
    | ok pgs =>
      simp only [workerGo, hc, List.mem_cons] at h
      rcases h with h | h | h | h
      · exact absurd h (by simp)
      · exact absurd h (by simp)
      · rw [WEvent.rename.injEq] at h
        exact ⟨i, h.1, h.2⟩
      · exact ih (i + 1) s d h

theorem published_workerGo (ocr : String → Except String (List String)) :
    ∀ (items : List WorkItem) (i : Nat),
    published (workerGo ocr i items) = pubList ocr i items := by
  intro items
  induction items with
  | nil => intro i; rfl
  | cons it rest ih =>
    intro i
    cases hc : ocr it.path with
    | error e =>
      simp only [workerGo, hc, pubList]
      rw [published_cons_ocrCall, published_cons_diag]
      exact ih i
    | ok pgs =>
      simp only [workerGo, hc, pubList]
      rw [published_cons_ocrCall, published_write_rename, if_pos rfl]
      exact congrArg _ (ih (i + 1))

theorem pubList_spec (ocr : String → Except String (List String)) :
    ∀ (items : List WorkItem) (i : Nat) (e : String × StagedObj),
    e ∈ pubList ocr i items →
    (∃ j, e.1 = finName j) ∧ ocr e.2.path = .ok e.2.pages := by
  intro items
  induction items with
  | nil => intro i e h; simp [pubList] at h
  | cons it rest ih =>
    intro i e h
    cases hc : ocr it.path with
    | error err =>
      simp only [pubList, hc] at h
      exact ih i e h
    | ok pgs =>
      simp only [pubList, hc, List.mem_cons] at h
      rcases h with h | h
      · subst h
        exact ⟨⟨i, rfl⟩, hc⟩
      · exact ih (i + 1) e h

theorem dbGet_dbSet (p q : String) (r : DocRecord) : ∀ db : Db,
    dbGet (dbSet db p r) q = if q = p then some r else dbGet db q := by
  intro db
  induction db with
  | nil =>
    by_cases h : q = p
    · subst h; simp [dbSet, dbGet]
    · have h' : ¬(p = q) := fun hh => h hh.symm
      simp [dbSet, dbGet, h, h']
  | cons e rest ih =>
    by_cases he : e.1 = p
    · by_cases hq : q = p
      · subst hq; simp [dbSet, dbGet, he]
      · have h1 : ¬(p = q) := fun hh => hq hh.symm
        have h2 : ¬(e.1 = q) := by rw [he]; exact h1
        simp [dbSet, dbGet, he, hq, h1, h2]
    · by_cases hq : e.1 = q
      · have hqp : ¬(q = p) := fun hh => he (hq.trans hh)
        simp [dbSet, dbGet, he, hq, hqp]
      · simp [dbSet, dbGet, he, hq, ih]

theorem dbGet_fold_preserve (p : String) :
    ∀ (l : List (String × StagedObj)) (db : Db),
    (∀ e ∈ l, e.2.path ≠ p) →
    dbGet (l.foldl (fun d e => dbSet d e.2.path ⟨e.2.mtime, e.2.fsize, e.2.pages⟩) db) p
      = dbGet db p := by
  intro l
  induction l with
  | nil => intro db _; rfl
  | cons e l ih =>
    intro db h
    rw [List.foldl_cons, ih _ fun x hx => h x (List.mem_cons_of_mem _ hx),
      dbGet_dbSet, if_neg (Ne.symm (h e (List.mem_cons_self e l)))]

theorem dbGet_fold_prop (P : DocRecord → Prop) (p : String) :
    ∀ (l : List (String × StagedObj)) (db : Db),
    (∀ e ∈ l, e.2.path = p → P ⟨e.2.mtime, e.2.fsize, e.2.pages⟩) →
    p ∈ l.map (fun e => e.2.path) →
    ∀ rec, dbGet (l.foldl
        (fun d e => dbSet d e.2.path ⟨e.2.mtime, e.2.fsize, e.2.pages⟩) db) p =
      some rec → P rec := by
  intro l
  induction l with
  | nil => intro db _ hmem; simp at hmem
  | cons e l ih =>
    intro db hall hmem rec hget
    rw [List.foldl_cons] at hget
    by_cases hp : p ∈ l.map (fun e => e.2.path)
    · exact ih _ (fun x hx => hall x (List.mem_cons_of_mem _ hx)) hp rec hget
    · have hep : e.2.path = p := by
        simp only [List.map_cons, List.mem_cons] at hmem
        rcases hmem with h | h
        · exact h.symm
        · exact absurd h hp
      have hpres : ∀ x ∈ l, x.2.path ≠ p := fun x hx hc =>
        hp (by rw [← hc]; exact List.mem_map_of_mem _ hx)
      rw [dbGet_fold_preserve p l _ hpres, dbGet_dbSet, if_pos hep.symm] at hget
      rw [← Option.some.inj hget]
      exact hall e (List.mem_cons_self e l) hep

theorem published_filter_isdigit (ocr : String → Except String (List String))
    (items : List WorkItem) :
    (published (workerRun ocr items)).filter (fun e => pyIsdigit e.1) =
      published (workerRun ocr items) := by
  apply List.filter_eq_self.mpr
  intro e he
  rw [workerRun, published_workerGo] at he
  obtain ⟨⟨j, hj⟩, _⟩ := pubList_spec ocr items 0 e he
  rw [hj]
  exact pyIsdigit_finName j

/-- C6: every successful item first writes its serialized record to the
worker's private staging directory under a temporary `'%d.tmp'` name and
only then atomically renames it to the final `'%d'` sequence name
(`WellStaged`); no temporary name ever passes the coordinator's
`isdigit()` harvest filter while every final name does, so the
coordinator merges only fully published staging files and never observes
a partially written result. -/
theorem staging_atomic_publish (ocr : String → Except String (List String))
    (items : List WorkItem) :
    WellStaged (workerRun ocr items)
    ∧ (∀ n o, WEvent.write n o ∈ workerRun ocr items → pyIsdigit n = false)
    ∧ (∀ s d, WEvent.rename s d ∈ workerRun ocr items →
        pyIsdigit s = false ∧ pyIsdigit d = true)
    ∧ (published (workerRun ocr items)).filter (fun e => pyIsdigit e.1) =
        published (workerRun ocr items) := by
  refine ⟨workerGo_wellStaged ocr items 0, ?_, ?_, ?_⟩
  · intro n o h
    obtain ⟨⟨j, hj⟩, _⟩ := workerGo_write_names ocr items 0 n o h
    rw [hj]
    exact pyIsdigit_tmpName j
  · intro s d h
    obtain ⟨j, hs, hd⟩ := workerGo_rename_names ocr items 0 s d h
    rw [hs, hd]
    exact ⟨pyIsdigit_tmpName j, pyIsdigit_finName j⟩
  · exact published_filter_isdigit ocr items

/-- C6 witness: for a one-item workload whose OCR succeeds, the staged
write really happens under `"0.tmp"`, which fails the harvest filter,
while the rename destination `"0"` passes it. -/
theorem staging_atomic_publish_witness :
    pyIsdigit "0.tmp" = false ∧ pyIsdigit "0" = true := by
  have h := staging_atomic_publish (fun _ => Except.ok ["x"]) [⟨"/a.pdf", 0, 0⟩]
  refine ⟨?_, ?_⟩
  · exact h.2.1 "0.tmp" ⟨"/a.pdf", 0, 0, ["x"]⟩ (by
      show WEvent.write "0.tmp" ⟨"/a.pdf", 0, 0, ["x"]⟩ ∈
        workerRun (fun _ => Except.ok ["x"]) [⟨"/a.pdf", 0, 0⟩]
      decide)
  · exact (h.2.2.1 "0.tmp" "0" (by
      show WEvent.rename "0.tmp" "0" ∈
        workerRun (fun _ => Except.ok ["x"]) [⟨"/a.pdf", 0, 0⟩]
      decide)).2

/-- C7: after the coordinator merges a worker's published results, the
stored `pages` sequence of every document published in this pass equals
exactly the ordered page-text sequence returned by the OCR collaborator
for that document. -/
theorem pages_roundtrip (ocr : String → Except String (List String))
    (items : List WorkItem) (db : Db) (p : String) (rec : DocRecord)
    (hpub : p ∈ (published (workerRun ocr items)).map (fun e => e.2.path))
    (hget : dbGet (process_results db (workerRun ocr items)) p = some rec) :
    ocr p = .ok rec.pages := by
  rw [process_results, published_filter_isdigit ocr items] at hget
  refine dbGet_fold_prop (fun r => ocr p = .ok r.pages) p
    (published (workerRun ocr items)) db ?_ hpub rec hget
  intro e he hep
  rw [workerRun, published_workerGo] at he
  have h := (pubList_spec ocr items 0 e he).2
  rw [hep] at h
  exact h

/-- C7 witness: a one-document run whose OCR returns `["x"]` ends with the
merged record holding exactly `pages = ["x"]`. -/
theorem pages_roundtrip_witness :
    ((fun _ => Except.ok ["x"]) : String → Except String (List String)) "/a.pdf" =
      Except.ok (DocRecord.pages ⟨0, 0, ["x"]⟩) :=
  pages_roundtrip (fun _ => Except.ok ["x"]) [⟨"/a.pdf", 0, 0⟩] [] "/a.pdf"
    ⟨0, 0, ["x"]⟩ (by decide) (by decide)

theorem workerGo_diag_mem (ocr : String → Except String (List String))
    (it : WorkItem) (e : String) (herr : ocr it.path = .error e) :
    ∀ (items : List WorkItem) (i : Nat), it ∈ items →
    WEvent.diag (diagMsg it.path e) ∈ workerGo ocr i items := by
  intro items
  induction items with
  | nil => intro i h; simp at h
  | cons it' rest ih =>
    intro i h
    rcases List.mem_cons.mp h with h | h
    · subst h
      simp only [workerGo, herr]
      exact List.mem_cons_of_mem _ (List.mem_cons_self _ _)
    · cases hc : ocr it'.path with
      | error e' =>
        simp only [workerGo, hc]
        exact List.mem_cons_of_mem _ (List.mem_cons_of_mem _ (ih i h))
      | ok pgs =>
        simp only [workerGo, hc]
        exact List.mem_cons_of_mem _ (List.mem_cons_of_mem _
          (List.mem_cons_of_mem _ (ih (i + 1) h)))

/-- C8: when the rasterize/OCR collaborator signals a recoverable failure
on an item, the worker emits the diagnostic line, writes no staging record
for that item (so merging leaves the document absent from the database and
eligible for retry), and continues with the remaining items of its
batch. -/
theorem recoverable_failure_skips (ocr : String → Except String (List String))
    (items : List WorkItem) (it : WorkItem) (e : String) (db : Db)
    (herr : ocr it.path = .error e) :
    (it ∈ items → WEvent.diag (diagMsg it.path e) ∈ workerRun ocr items)
    ∧ (∀ n o, WEvent.write n o ∈ workerRun ocr items → o.path ≠ it.path)
    ∧ (dbGet db it.path = none →
        dbGet (process_results db (workerRun ocr items)) it.path = none)
    ∧ ∀ rest, workerRun ocr (it :: rest) =
        WEvent.ocrCall it.path :: WEvent.diag (diagMsg it.path e) ::
          workerRun ocr rest := by
  refine ⟨workerGo_diag_mem ocr it e herr items 0, ?_, ?_, ?_⟩
  · intro n o h hc
    have hok := (workerGo_write_names ocr items 0 n o h).2
    rw [hc, herr] at hok
    exact Except.noConfusion hok
  · intro hnone
    rw [process_results, published_filter_isdigit ocr items,
      dbGet_fold_preserve it.path (published (workerRun ocr items)) db ?_]
    · exact hnone
    · intro x hx hc
      rw [workerRun, published_workerGo] at hx
      have hok := (pubList_spec ocr items 0 x hx).2
      rw [hc, herr] at hok
      exact Except.noConfusion hok
  · intro rest
    simp only [workerRun, workerGo, herr]

/-- C8 witness: a collaborator that fails with `"bad"` on the single item
makes the worker emit exactly the `cannot index` diagnostic. -/
theorem recoverable_failure_skips_witness :
    WEvent.diag (diagMsg "/a.pdf" "bad") ∈
      workerRun (fun _ => Except.error "bad") [⟨"/a.pdf", 0, 0⟩] :=
  (recoverable_failure_skips (fun _ => Except.error "bad") [⟨"/a.pdf", 0, 0⟩]
    ⟨"/a.pdf", 0, 0⟩ "bad" [] rfl).1 (by decide)

/-! ### Idempotent re-indexing and the coordinator's polling loop -/

/-- The number of rasterize+OCR collaborator invocations in a worker
trace (one `convert_from_path` call per processed item). -/
def ocrCallCount (evts : List WEvent) : Nat :=
  evts.countP fun e =>
    match e with
    | WEvent.ocrCall _ => true
    | _ => false

/-- C9: if every discovered candidate has a database record with an
identical `(mtime, fsize)` fingerprint, re-indexing produces an empty
workload (no assignments, total 0), so every slot's batch is empty and
zero OCR invocations are performed on the second pass. -/
theorem unchanged_reindex_no_ocr (ncpu : Nat) (db : Db) (files : List WorkItem)
    (ocr : String → Except String (List String)) (j : Nat)
    (h : ∀ f ∈ files, fpMatch db f = true) :
    (buildWorkload ncpu db files).1 = []
    ∧ (buildWorkload ncpu db files).2 = 0
    ∧ ocrCallCount (workerRun ocr (perSlot ncpu db files j)) = 0 := by
  have hfil : (files.filter fun f => !fpMatch db f) = [] := by
    apply List.filter_eq_nil_iff.mpr
    intro f hf
    simp [h f hf]
  have h1 : (buildWorkload ncpu db files).1 = [] := by
    rw [buildWorkload_items, hfil]
    rfl
  refine ⟨h1, ?_, ?_⟩
  · rw [buildWorkload_total, hfil]
    rfl
  · unfold perSlot
    rw [h1]
    rfl

/-- C9 witness: a database already holding the exact fingerprint of the
only candidate yields an empty workload and zero OCR calls. -/
theorem unchanged_reindex_no_ocr_witness :
    (buildWorkload 4 [("/a.pdf", ⟨5, 7, ["x"]⟩)] [⟨"/a.pdf", 5, 7⟩]).1 = []
    ∧ (buildWorkload 4 [("/a.pdf", ⟨5, 7, ["x"]⟩)] [⟨"/a.pdf", 5, 7⟩]).2 = 0
    ∧ ocrCallCount (workerRun (fun _ => Except.ok [])
        (perSlot 4 [("/a.pdf", ⟨5, 7, ["x"]⟩)] [⟨"/a.pdf", 5, 7⟩] 0)) = 0 :=
  unchanged_reindex_no_ocr 4 [("/a.pdf", ⟨5, 7, ["x"]⟩)] [⟨"/a.pdf", 5, 7⟩]
    (fun _ => Except.ok []) 0 (by decide)

/-- The outcome of one iteration of the coordinator's polling loop:
either the loop breaks (every tracked worker has exited) or it proceeds
to the progress computations of that tick. -/
inductive CoordStep where
  | halt : CoordStep
  | tick : Option ℚ → CoordStep
deriving DecidableEq

/-- `percent_done = self.pdfs_done / (total_todo / 100)`: Python float
division raising `ZeroDivisionError` on a zero divisor is modelled as
`none`. -/
def percentExpr (done total : Nat) : Option ℚ :=
  if ((total : ℚ) / 100) = 0 then none
  else some ((done : ℚ) / ((total : ℚ) / 100))

/-- The slots that get a worker process forked
(`for thread_id in workload`): the keys of the workload dict. -/
def slotsOf (asg : List (Nat × WorkItem)) : List Nat := (asg.map Prod.fst).dedup

/-- One iteration of the coordinator's polling loop (`while 1`):
`threads_complete` stays true iff no tracked pid is still alive; if so the
loop breaks before the sleep and before the throughput/ETA/percentage
computations, otherwise the percentage expression of that tick is
evaluated. -/
def coordIter (pids : List Nat) (alive : Nat → Bool) (done total : Nat) :
    CoordStep :=
  if pids.all (fun p => !alive p) then CoordStep.halt
  else CoordStep.tick (percentExpr done total)

/-- C10: when the partitioner returns a total of zero the workload is
empty, no worker process is spawned (no slot keys), and the polling loop
halts on its first iteration before the percentage computation is reached
— the percentage expression, which with a zero total would divide by
zero (`none`), is never evaluated. -/
theorem zero_total_halts (ncpu : Nat) (db : Db) (files : List WorkItem)
    (alive : Nat → Bool) (done : Nat)
    (h : (buildWorkload ncpu db files).2 = 0) :
    (buildWorkload ncpu db files).1 = []
    ∧ slotsOf (buildWorkload ncpu db files).1 = []
    ∧ coordIter (slotsOf (buildWorkload ncpu db files).1) alive done
        (buildWorkload ncpu db files).2 = CoordStep.halt
    ∧ percentExpr done 0 = none := by
  have hkept : (files.filter fun f => !fpMatch db f).length = 0 := by
    rw [← buildWorkload_total]
    exact h
  have hfil : (files.filter fun f => !fpMatch db f) = [] :=
    List.length_eq_zero.mp hkept
  have h1 : (buildWorkload ncpu db files).1 = [] := by
    rw [buildWorkload_items, hfil]
    rfl
  have h2 : slotsOf (buildWorkload ncpu db files).1 = [] := by
    rw [h1]
    rfl
  refine ⟨h1, h2, ?_, ?_⟩
  · rw [h2]
    rfl
  · unfold percentExpr
    norm_num

/-- C10 witness: an empty candidate list gives total 0, an empty slot set
and an immediately halting first loop iteration. -/
theorem zero_total_halts_witness :
    (buildWorkload 2 [] []).1 = []
    ∧ slotsOf (buildWorkload 2 [] []).1 = []
    ∧ coordIter (slotsOf (buildWorkload 2 [] []).1) (fun _ => false) 0
        (buildWorkload 2 [] []).2 = CoordStep.halt
    ∧ percentExpr 0 0 = none :=
  zero_total_halts 2 [] [] (fun _ => false) 0 rfl
